import Mathlib

/-!
Verification of the rolling hedge-ratio regression core of
`streamlit_app(2).py` (alignment of two time series on common timestamps,
rolling 3-month OLS regression of the fly series on the leg series,
residual statistics and latest-residual z-score).

The embedding follows the source line by line:

* `align`        — lines 24-34 (intersection on common timestamps, `dropna`,
                   sort by timestamp);
* `windowDf`, `fitRow`, `rollingReg` — lines 37-47 (the rolling loop with
                   `min_periods = 50` and the window filter
                   `df.index >= t - pd.DateOffset(months=3)`);
* `residualCol`  — lines 50-53 (`predicted`/`residual` columns with NaN
                   propagation);
* `muOf`, `sigmaSqOf`, `ilocLast`, `zvalOf`, `zScoreOf` — lines 56-59
                   (`mean`, `std(ddof=1)`, `iloc[-1]`, the z-score);
* `kurtRawOf`    — line 69 (`scipy.stats.kurtosis(residuals, fisher=False)`).

Exact values are modelled in `ℚ`; an IEEE NaN is modelled as `Option.none`;
the only square root in the program (inside `std`) is taken with `Real.sqrt`
at the two places where the value of `std` itself matters.  Python exceptions
are modelled with `Except String`.
-/

namespace DFly

/-- Calendar timestamp at the resolution the app uses: `months` is the
absolute month index (`year * 12 + (month - 1)` as an integer), `day` the
day of month and `time` the time of day (e.g. in seconds).  This is a
faithful re-coding of a pandas `Timestamp`. -/
structure Timestamp where
  months : ℤ
  day : ℕ
  time : ℕ
deriving DecidableEq, Repr

/-- Gregorian leap-year test for the year of an absolute month index. -/
def leapYear (y : ℤ) : Bool :=
  (y % 4 == 0 && y % 100 != 0) || y % 400 == 0

/-- Number of days of the month with absolute index `m` (month of year is
`m.emod 12`, `0` = January). -/
def daysInMonth (m : ℤ) : ℕ :=
  let moy := (m.emod 12).toNat
  if moy = 1 then (if leapYear (m.ediv 12) then 29 else 28)
  else if moy = 3 ∨ moy = 5 ∨ moy = 8 ∨ moy = 10 then 30
  else 31

/-- `t - pd.DateOffset(months=k)`: shift the month index back by `k` and
clamp the day of month to the end of the target month, keeping the time of
day (pandas end-of-month clamping semantics). -/
def Timestamp.subMonths (t : Timestamp) (k : ℕ) : Timestamp :=
  let m := t.months - (k : ℤ)
  ⟨m, min t.day (daysInMonth m), t.time⟩

/-- Chronological order on timestamps (lexicographic on month index, day,
time of day). -/
def Timestamp.le (a b : Timestamp) : Prop :=
  a.months < b.months ∨
    (a.months = b.months ∧ (a.day < b.day ∨ (a.day = b.day ∧ a.time ≤ b.time)))

instance (a b : Timestamp) : Decidable (a.le b) := by
  unfold Timestamp.le; exact inferInstance

theorem Timestamp.le_refl (a : Timestamp) : a.le a := by
  unfold Timestamp.le; omega

theorem Timestamp.le_trans {a b c : Timestamp} (h1 : a.le b) (h2 : b.le c) :
    a.le c := by
  unfold Timestamp.le at h1 h2 ⊢; omega

theorem Timestamp.le_total (a b : Timestamp) : a.le b ∨ b.le a := by
  unfold Timestamp.le; omega

theorem Timestamp.le_antisymm {a b : Timestamp} (h1 : a.le b) (h2 : b.le a) :
    a = b := by
  obtain ⟨ma, da, ta⟩ := a
  obtain ⟨mb, db, tb⟩ := b
  unfold Timestamp.le at h1 h2
  simp only at h1 h2
  simp only [Timestamp.mk.injEq]
  omega

/-- Subtracting months preserves chronological order as long as the two
timestamps carry the same time of day (in particular for pure dates).  With
distinct times of day the end-of-month clamp can reorder results. -/
theorem Timestamp.subMonths_le_subMonths {a b : Timestamp} (k : ℕ)
    (hle : a.le b) (ht : a.time = b.time) :
    (a.subMonths k).le (b.subMonths k) := by
  obtain ⟨ma, da, ta⟩ := a
  obtain ⟨mb, db, tb⟩ := b
  simp only [Timestamp.subMonths]
  unfold Timestamp.le at hle ⊢
  simp only at hle ht ⊢
  rcases hle with h | ⟨hm, h⟩
  · left; omega
  · subst hm
    right
    refine ⟨rfl, ?_⟩
    rcases h with h | ⟨hd, htime⟩
    · rcases Nat.lt_or_ge da (daysInMonth (ma - (k:ℤ))) with h2 | h2 <;> omega
    · subst hd; omega

/-- One row of the aligned frame `df` (timestamp index, `leg` and `fly`
columns, both fully populated after `dropna`). -/
structure Row where
  ts : Timestamp
  leg : ℚ
  fly : ℚ
deriving DecidableEq, Repr

/-- An input CSV series: a `Timestamp (UTC)` column and a `Close` column
whose value may be missing (`none` models an IEEE NaN cell). -/
abbrev Series : Type := List (Timestamp × Option ℚ)

/-- Membership of a timestamp in the timestamp set of a series, as used by
`set(df["Timestamp (UTC)"])`. -/
def tsMem (s : Series) (t : Timestamp) : Bool :=
  (s : List (Timestamp × Option ℚ)).any (fun r => decide (r.1 = t))

/-- Line 24: `common = set(df_fly[..]) & set(df_leg[..])`. -/
def inCommon (flyS legS : Series) (t : Timestamp) : Bool :=
  tsMem flyS t && tsMem legS t

/-- Order on series rows by timestamp, used for `sort_values("Timestamp (UTC)")`. -/
def pairLe (p q : Timestamp × Option ℚ) : Prop := p.1.le q.1

instance (p q : Timestamp × Option ℚ) : Decidable (pairLe p q) := by
  unfold pairLe; exact inferInstance

instance : IsTotal (Timestamp × Option ℚ) pairLe :=
  ⟨fun p q => Timestamp.le_total p.1 q.1⟩

instance : IsTrans (Timestamp × Option ℚ) pairLe :=
  ⟨fun _ _ _ h1 h2 => Timestamp.le_trans h1 h2⟩

/-- Order on aligned rows by timestamp index, used for `df.sort_index()`. -/
def rowLe (p q : Row) : Prop := p.ts.le q.ts

instance (p q : Row) : Decidable (rowLe p q) := by
  unfold rowLe; exact inferInstance

instance : IsTotal Row rowLe := ⟨fun p q => Timestamp.le_total p.ts q.ts⟩

instance : IsTrans Row rowLe := ⟨fun _ _ _ h1 h2 => Timestamp.le_trans h1 h2⟩

/-- Line 25: `fly_common = df_fly[df_fly[..].isin(common)].sort_values(..)`. -/
def flyCommon (flyS legS : Series) : List (Timestamp × Option ℚ) :=
  List.insertionSort pairLe
    ((flyS : List (Timestamp × Option ℚ)).filter (fun r => inCommon flyS legS r.1))

/-- Line 26: `leg_common = df_leg[df_leg[..].isin(common)].sort_values(..)`. -/
def legCommon (flyS legS : Series) : List (Timestamp × Option ℚ) :=
  List.insertionSort pairLe
    ((legS : List (Timestamp × Option ℚ)).filter (fun r => inCommon flyS legS r.1))

/-- Lines 29-32, the `dropna`: a frame row is kept only when both `Close`
cells are present; the row's index label is the leg row's timestamp. -/
def mkRow (p : (Timestamp × Option ℚ) × (Timestamp × Option ℚ)) : Option Row :=
  match p.1.2, p.2.2 with
  | some lv, some fv => some ⟨p.1.1, lv, fv⟩
  | _, _ => none

/-- Lines 24-34: restrict each input frame to the common timestamps, sort
each by timestamp, build the two-column frame from the two equally-indexed
columns, drop rows with a missing value in either column, and sort by index.
When the two restricted indexes disagree as sequences (possible only when a
timestamp is duplicated with different multiplicities in the two inputs),
`pd.DataFrame` reindexes against an index with duplicate labels; the model
maps that case to an alignment error and no theorem below relies on it.
When the two indexes agree the frame keeps one row per index entry,
duplicates included — the code never collapses duplicate timestamps. -/
def align (flyS legS : Series) : Except String (List Row) :=
  if (flyCommon flyS legS).map Prod.fst = (legCommon flyS legS).map Prod.fst then
    .ok (List.insertionSort rowLe
      (((legCommon flyS legS).zip (flyCommon flyS legS)).filterMap mkRow))
  else .error "cannot reindex on an axis with duplicate labels"

/-- Line 40: `window_df = df.loc[df.index >= (t - pd.DateOffset(months=3))]`.
Note the filter has no upper bound, so rows after `t` are kept as well. -/
def windowDf (df : List Row) (t : Timestamp) : List Row :=
  df.filter (fun r => decide ((t.subMonths 3).le r.ts))

/-- Line 38: `min_periods = 50`. -/
def minPeriodsApp : ℕ := 50

/-- Mean of the predictor column inside `np.polyfit`. -/
def xbarOf (x : List ℚ) : ℚ := x.sum / x.length

/-- Mean of the response column inside `np.polyfit` (the two columns have
equal length at every call site). -/
def ybarOf (x y : List ℚ) : ℚ := y.sum / x.length

/-- Centred sum of squares of the predictor column. -/
def sxxOf (x : List ℚ) : ℚ := (x.map (fun a => (a - xbarOf x) ^ 2)).sum

/-- Centred cross sum of the two columns. -/
def sxyOf (x y : List ℚ) : ℚ :=
  ((x.zip y).map (fun p => (p.1 - xbarOf x) * (p.2 - ybarOf x y))).sum

/-- Line 45: `np.polyfit(x, y, 1)` over exact rationals.  For a non-constant
`x` this is the ordinary least-squares slope and intercept.  For a constant
nonzero `x` the scaled Vandermonde matrix is rank-one and `lstsq` returns the
minimum-norm solution of the column-scaled system, which works out to
`(ȳ/(2c), ȳ/2)`.  For an identically-zero `x` the column scaling divides by
zero and `numpy.linalg.lstsq` fails on the resulting NaNs. -/
def polyfit (x y : List ℚ) : Except String (ℚ × ℚ) :=
  if x.length = 0 then .error "expected non-empty vector for x"
  else if sxxOf x = 0 then
    if xbarOf x = 0 then .error "SVD did not converge in Linear Least Squares"
    else .ok (ybarOf x y / (2 * xbarOf x), ybarOf x y / 2)
  else .ok (sxyOf x y / sxxOf x, ybarOf x y - sxyOf x y / sxxOf x * xbarOf x)

/-- Lines 40-47, body of the rolling loop for the row at timestamp `t`:
append `NaN` when the window holds fewer than `min_periods` rows, otherwise
the `np.polyfit` slope and intercept of the window. -/
def fitRow (minPeriods : ℕ) (df : List Row) (t : Timestamp) :
    Except String (Option (ℚ × ℚ)) :=
  let w := windowDf df t
  if w.length < minPeriods then .ok none
  else (polyfit (w.map Row.leg) (w.map Row.fly)).map some

/-- Sequential effectful map: the Python `for` loop appends one result per
row and an exception anywhere aborts the whole script. -/
def exceptMap (f : α → Except String β) : List α → Except String (List β)
  | [] => .ok []
  | a :: l =>
    match f a with
    | .error e => .error e
    | .ok b =>
      match exceptMap f l with
      | .error e => .error e
      | .ok bs => .ok (b :: bs)

/-- Lines 37-47: the rolling 3-month regression loop, producing the
`beta`/`intercept` pair per row (`none` models the NaN appended when the
window is under-populated). -/
def rollingReg (minPeriods : ℕ) (df : List Row) :
    Except String (List (Option (ℚ × ℚ))) :=
  exceptMap (fun r => fitRow minPeriods df r.ts) df

/-- Lines 52-53 for one row: `predicted = beta * leg + intercept`,
`residual = fly - predicted`. -/
def rowResidual (r : Row) (mb : ℚ × ℚ) : ℚ :=
  r.fly - (mb.1 * r.leg + mb.2)

/-- Lines 50-53: the `residual` column; a NaN `beta` propagates to a NaN
residual. -/
def residualCol (minPeriods : ℕ) (df : List Row) :
    Except String (List (Option ℚ)) :=
  (rollingReg minPeriods df).map (fun bs =>
    (df.zip bs).map (fun p => p.2.map (rowResidual p.1)))

instance {ε α : Type _} [DecidableEq ε] [DecidableEq α] :
    DecidableEq (Except ε α) := fun a b =>
  match a, b with
  | .error e, .error f =>
    if h : e = f then .isTrue (by rw [h])
    else .isFalse (by intro hh; injection hh; contradiction)
  | .error _, .ok _ => .isFalse (by intro hh; exact Except.noConfusion hh)
  | .ok _, .error _ => .isFalse (by intro hh; exact Except.noConfusion hh)
  | .ok a, .ok b =>
    if h : a = b then .isTrue (by rw [h])
    else .isFalse (by intro hh; injection hh; contradiction)

/-- The finite entries of a column with NaNs, in order: what pandas
`dropna()` returns and what the `skipna` aggregations of lines 56-57
aggregate over. -/
def finiteVals (rs : List (Option ℚ)) : List ℚ :=
  rs.filterMap id

/-- Line 56: `mu = df["residual"].mean()` — pandas mean skips NaNs and is
itself NaN when no finite value exists. -/
def muOf (rs : List (Option ℚ)) : Option ℚ :=
  let v := finiteVals rs
  if v.length = 0 then none else some (v.sum / v.length)

/-- Square of line 57's `sigma = df["residual"].std(ddof=1)`: the sample
variance of the finite entries, NaN when fewer than two exist.  The code's
`sigma` is the square root of this value. -/
def sigmaSqOf (rs : List (Option ℚ)) : Option ℚ :=
  let v := finiteVals rs
  if v.length < 2 then none
  else some ((v.map (fun a => (a - v.sum / v.length) ^ 2)).sum / ((v.length : ℚ) - 1))

/-- Line 58: `latest = df["residual"].iloc[-1]` — the last entry of the
unfiltered residual column; pandas raises `IndexError` on an empty column. -/
def ilocLast (rs : List (Option ℚ)) : Except String (Option ℚ) :=
  match rs.getLast? with
  | some x => .ok x
  | none => .error "single positional indexer is out-of-bounds"

/-- An IEEE double as the z-score computation sees it: a finite real, a
signed infinity, or NaN. -/
inductive FVal where
  | fin (x : ℝ)
  | pinf
  | ninf
  | nan

/-- Line 59: `z_score = (latest - mu) / sigma` in IEEE arithmetic, with
`sigma` the square root of the sample variance: NaN operands give NaN, a
zero `sigma` gives NaN for a zero numerator and a signed infinity
otherwise. -/
noncomputable def zvalOf (latest mu sigmaSq : Option ℚ) : FVal :=
  match latest, mu, sigmaSq with
  | some l, some m, some v =>
    if v = 0 then
      (if l = m then .nan else if m < l then .pinf else .ninf)
    else .fin (((l : ℝ) - (m : ℝ)) / Real.sqrt (v : ℝ))
  | _, _, _ => .nan

/-- Lines 56-59 as one unit: compute `mu`, `sigma`, `latest` and the
z-score from the residual column; the only step that can raise is
`iloc[-1]`. -/
noncomputable def zScoreOf (rs : List (Option ℚ)) : Except String FVal :=
  (ilocLast rs).map (fun latest => zvalOf latest (muOf rs) (sigmaSqOf rs))

/-- Arithmetic mean of a finite sample (scipy population moments helper). -/
def qmean (v : List ℚ) : ℚ := v.sum / v.length

/-- Second central population moment `m2` of a finite sample. -/
def qm2 (v : List ℚ) : ℚ :=
  (v.map (fun a => (a - qmean v) ^ 2)).sum / v.length

/-- Fourth central population moment `m4` of a finite sample. -/
def qm4 (v : List ℚ) : ℚ :=
  (v.map (fun a => (a - qmean v) ^ 4)).sum / v.length

/-- Line 69: `kurtosis(residuals, fisher=False)` with scipy defaults
(`bias=True`): the raw fourth standardized moment `m4 / m2²` of the finite
residuals, with no subtraction of 3; NaN for an empty sample or a sample
with zero variance. -/
def kurtRawOf (v : List ℚ) : Option ℚ :=
  if v.length = 0 then none
  else if qm2 v = 0 then none
  else some (qm4 v / qm2 v ^ 2)

/-- Modelled from the spec: the fourth standardized moment of a sample,
`mean(((x - x̄)/σ_pop)⁴)` with `σ_pop = √m2`, the quantity the spec's
"raw (non-excess) kurtosis" sentence describes.  Used only to compare the
code's `kurtRawOf` against the spec's wording. -/
noncomputable def specKurt (v : List ℚ) : ℝ :=
  ((v.map (fun (a : ℚ) => (((a : ℝ) - ((qmean v : ℚ) : ℝ)) / Real.sqrt ((qm2 v : ℚ) : ℝ)) ^ 4)).sum) /
    (v.length : ℝ)

/-- Lines 22-59 end to end: align the two uploaded series, run the rolling
regression with the app's `min_periods = 50`, build the residual column and
compute the headline z-score.  Any Python exception on the way surfaces as
an `Except.error`. -/
noncomputable def appRun (flyS legS : Series) : Except String FVal := do
  let df ← align flyS legS
  let rs ← residualCol minPeriodsApp df
  zScoreOf rs

end DFly

namespace DFly

theorem sum_sq_nonneg (l : List ℚ) (c : ℚ) :
    0 ≤ (l.map (fun a => (a - c) ^ 2)).sum :=
  List.sum_nonneg (by
    intro x hx
    obtain ⟨a, _, rfl⟩ := List.mem_map.mp hx
    positivity)

theorem eq_of_sum_sq_zero {l : List ℚ} {c : ℚ}
    (h : (l.map (fun a => (a - c) ^ 2)).sum = 0) : ∀ a ∈ l, a = c := by
  induction l with
  | nil => simp
  | cons x l ih =>
    simp only [List.map_cons, List.sum_cons] at h
    have h1 : 0 ≤ (x - c) ^ 2 := sq_nonneg _
    have h2 : 0 ≤ (l.map (fun a => (a - c) ^ 2)).sum := sum_sq_nonneg l c
    have hx : (x - c) ^ 2 = 0 := by linarith
    have hs : (l.map (fun a => (a - c) ^ 2)).sum = 0 := by linarith
    intro a ha
    rcases List.mem_cons.mp ha with rfl | ha
    · have := pow_eq_zero_iff (n := 2) (by norm_num) |>.mp hx
      linarith [sub_eq_zero.mp this]
    · exact ih hs a ha

theorem sum_sq_zero_of_all_eq {l : List ℚ} {c : ℚ} (h : ∀ a ∈ l, a = c) :
    (l.map (fun a => (a - c) ^ 2)).sum = 0 := by
  have he : l.map (fun a => (a - c) ^ 2) = l.map (fun _ => (0:ℚ)) :=
    List.map_congr_left (by intro a ha; rw [h a ha]; ring)
  rw [he]
  simp

theorem sum_of_all_eq {l : List ℚ} {c : ℚ} (h : ∀ a ∈ l, a = c) :
    l.sum = l.length * c := by
  induction l with
  | nil => simp
  | cons x t ih =>
    simp only [List.sum_cons, List.length_cons]
    rw [h x (by simp), ih (fun a ha => h a (by simp [ha]))]
    push_cast
    ring

theorem length_cast_ne_zero {l : List ℚ} (hne : l ≠ []) : (l.length : ℚ) ≠ 0 :=
  Nat.cast_ne_zero.mpr (fun h => hne (List.length_eq_zero.mp h))

theorem mean_of_all_eq {l : List ℚ} {c : ℚ} (hne : l ≠ []) (h : ∀ a ∈ l, a = c) :
    xbarOf l = c := by
  rw [xbarOf, sum_of_all_eq h]
  have hn := length_cast_ne_zero hne
  field_simp

theorem sxx_ne_of_pair {x : List ℚ} (hnc : ∃ a ∈ x, ∃ b ∈ x, a ≠ b) :
    sxxOf x ≠ 0 := by
  intro h0
  obtain ⟨a, ha, b, hb, hab⟩ := hnc
  have := eq_of_sum_sq_zero (l := x) (c := xbarOf x) h0
  exact hab ((this a ha).trans (this b hb).symm)

theorem polyfit_of_nc {x y : List ℚ} (hlen : x.length ≠ 0) (hsxx : sxxOf x ≠ 0) :
    polyfit x y =
      .ok (sxyOf x y / sxxOf x, ybarOf x y - sxyOf x y / sxxOf x * xbarOf x) := by
  rw [polyfit]
  simp [hlen, hsxx]

theorem polyfit_ok_of_pair {x y : List ℚ} (hnc : ∃ a ∈ x, ∃ b ∈ x, a ≠ b) :
    ∃ mb, polyfit x y = .ok mb := by
  have hne : x ≠ [] := by rintro rfl; simp at hnc
  exact ⟨_, polyfit_of_nc (by simpa using hne) (sxx_ne_of_pair hnc)⟩

theorem polyfit_const {x y : List ℚ} {c : ℚ} (hne : x ≠ [])
    (hall : ∀ a ∈ x, a = c) (hc : c ≠ 0) :
    polyfit x y = .ok (ybarOf x y / (2 * c), ybarOf x y / 2) := by
  have hlen : x.length ≠ 0 := by simpa using hne
  have hbar : xbarOf x = c := mean_of_all_eq hne hall
  have hsxx0 : sxxOf x = 0 := by
    rw [sxxOf, hbar]; exact sum_sq_zero_of_all_eq hall
  have hcbar : ¬ xbarOf x = 0 := by rw [hbar]; exact hc
  rw [polyfit, if_neg hlen, if_pos hsxx0, if_neg hcbar, hbar]

theorem ybar_linear {x : List ℚ} (m0 b0 : ℚ) (hne : x ≠ []) :
    ybarOf x (x.map (fun a => m0 * a + b0)) = m0 * xbarOf x + b0 := by
  have hn := length_cast_ne_zero hne
  rw [ybarOf, xbarOf, List.sum_map_add, List.sum_map_mul_left]
  have hid : x.map (fun a => a) = x := List.map_id x
  rw [hid]
  field_simp
  ring

theorem sxy_linear {x : List ℚ} (m0 b0 : ℚ) (hne : x ≠ []) :
    sxyOf x (x.map (fun a => m0 * a + b0)) = m0 * sxxOf x := by
  rw [sxyOf, sxxOf, ybar_linear m0 b0 hne]
  have hzip : x.zip (x.map (fun a => m0 * a + b0)) = x.map (fun a => (a, m0 * a + b0)) := by
    have h := List.zip_map' id (fun a => m0 * a + b0) x
    simpa using h
  rw [hzip, List.map_map, ← List.sum_map_mul_left]
  apply congrArg
  apply List.map_congr_left
  intro a _
  simp only [Function.comp_apply]
  ring

theorem polyfit_linear {x : List ℚ} (m0 b0 : ℚ) (hne : x ≠ [])
    (hnc : ∃ a ∈ x, ∃ b ∈ x, a ≠ b) :
    polyfit x (x.map (fun a => m0 * a + b0)) = .ok (m0, b0) := by
  have hsxx := sxx_ne_of_pair hnc
  rw [polyfit_of_nc (by simpa using hne) hsxx, sxy_linear m0 b0 hne,
    ybar_linear m0 b0 hne]
  have h1 : m0 * sxxOf x / sxxOf x = m0 := by field_simp
  rw [h1]
  ring_nf

end DFly

namespace DFly

theorem fitRow_of_lt {p : ℕ} {df : List Row} {t : Timestamp}
    (h : (windowDf df t).length < p) : fitRow p df t = .ok none := by
  rw [fitRow]
  simp [h]

theorem fitRow_of_ge {p : ℕ} {df : List Row} {t : Timestamp}
    (h : ¬ (windowDf df t).length < p) :
    fitRow p df t =
      (polyfit ((windowDf df t).map Row.leg) ((windowDf df t).map Row.fly)).map some := by
  rw [fitRow]
  simp [h]

theorem isSome_of_map_some {e : Except String (ℚ × ℚ)} {b : Option (ℚ × ℚ)}
    (h : e.map some = .ok b) : b.isSome := by
  cases e with
  | error s => simp [Except.map] at h
  | ok mb =>
    simp only [Except.map] at h
    injection h with h2
    rw [← h2]
    rfl

theorem exceptMap_map {α β γ : Type _} {f : α → Except String β} {l : List α}
    {out : List β} (h : exceptMap f l = .ok out) (g : β → γ) (gl : α → γ)
    (hgl : ∀ a b, f a = .ok b → g b = gl a) : out.map g = l.map gl := by
  induction l generalizing out with
  | nil =>
    rw [exceptMap] at h
    injection h with h2
    rw [← h2]
    simp
  | cons a t ih =>
    rw [exceptMap] at h
    cases hfa : f a with
    | error s => rw [hfa] at h; exact Except.noConfusion h
    | ok b =>
      rw [hfa] at h
      cases hrest : exceptMap f t with
      | error s => rw [hrest] at h; exact Except.noConfusion h
      | ok bs =>
        rw [hrest] at h
        injection h with h2
        rw [← h2]
        simp only [List.map_cons]
        rw [hgl a b hfa, ih hrest]

theorem exceptMap_length {α β : Type _} {f : α → Except String β} {l : List α}
    {out : List β} (h : exceptMap f l = .ok out) : out.length = l.length := by
  have h2 := exceptMap_map h (fun _ => ()) (fun _ => ()) (fun _ _ _ => rfl)
  have h3 := congrArg List.length h2
  simpa using h3

theorem exceptMap_ok_of_all {α β : Type _} {f : α → Except String β} {l : List α}
    (h : ∀ a ∈ l, ∃ b, f a = .ok b) : ∃ out, exceptMap f l = .ok out := by
  induction l with
  | nil => exact ⟨[], rfl⟩
  | cons a t ih =>
    obtain ⟨b, hb⟩ := h a (by simp)
    obtain ⟨out, hout⟩ := ih (fun x hx => h x (by simp [hx]))
    refine ⟨b :: out, ?_⟩
    rw [exceptMap, hb, hout]

/-- Whether the rolling loop appends NaN for a row: its trailing window
holds fewer than `min_periods` rows. -/
def underPred (p : ℕ) (df : List Row) : Row → Bool :=
  fun row => decide ((windowDf df row.ts).length < p)

theorem rollingReg_isNone {p : ℕ} {df : List Row} {r : List (Option (ℚ × ℚ))}
    (h : rollingReg p df = .ok r) :
    r.map Option.isNone = df.map (underPred p df) := by
  apply exceptMap_map h
  intro a b hfa
  by_cases hlt : (windowDf df a.ts).length < p
  · rw [fitRow_of_lt hlt] at hfa
    injection hfa with h2
    rw [← h2]
    simp [underPred, hlt]
  · rw [fitRow_of_ge hlt] at hfa
    have hs := isSome_of_map_some hfa
    cases b with
    | none => exact absurd hs (by simp)
    | some mb => simp [underPred, hlt]

/-- Number of NaN rows the rolling loop produced. -/
def undefCount (r : List (Option (ℚ × ℚ))) : ℕ := r.countP (fun o => o.isNone)

theorem undefCount_eq_countP {p : ℕ} {df : List Row} {r : List (Option (ℚ × ℚ))}
    (h : rollingReg p df = .ok r) : undefCount r = df.countP (underPred p df) := by
  have h2 := rollingReg_isNone h
  have h3 : undefCount r = List.countP (fun b => b) (r.map Option.isNone) := by
    rw [List.countP_map]
    rfl
  rw [h3, h2, List.countP_map]
  rfl

end DFly

namespace DFly

theorem rollingReg_length {p : ℕ} {df : List Row} {r : List (Option (ℚ × ℚ))}
    (h : rollingReg p df = .ok r) : r.length = df.length :=
  exceptMap_length h

theorem rollingReg_get_isNone {p : ℕ} {df : List Row} {r : List (Option (ℚ × ℚ))}
    (h : rollingReg p df = .ok r) (k : ℕ) (hk : k < df.length) (hkr : k < r.length) :
    (r.get ⟨k, hkr⟩).isNone = underPred p df (df.get ⟨k, hk⟩) := by
  have hmap := rollingReg_isNone h
  have h2 := congrArg (fun l => l.get? k) hmap
  simp only [List.get?_eq_getElem?, List.getElem?_map] at h2
  rw [List.getElem?_eq_getElem hkr, List.getElem?_eq_getElem hk] at h2
  simp only [Option.map_some'] at h2
  injection h2

/-- C9: for a fixed aligned input and window, raising `min_periods` never
decreases the number of NaN rows the rolling regression produces. -/
theorem claim_C9_min_periods_monotone {p1 p2 : ℕ} {df : List Row}
    {r1 r2 : List (Option (ℚ × ℚ))} (hp : p1 ≤ p2)
    (h1 : rollingReg p1 df = .ok r1) (h2 : rollingReg p2 df = .ok r2) :
    undefCount r1 ≤ undefCount r2 := by
  rw [undefCount_eq_countP h1, undefCount_eq_countP h2]
  apply List.countP_mono_left
  intro a _ hpa
  simp only [underPred, decide_eq_true_eq] at hpa ⊢
  omega

/-- Two aligned rows one day apart, used as a small concrete input. -/
def df2W : List Row := [⟨⟨24288,1,0⟩, 0, 0⟩, ⟨⟨24288,2,0⟩, 1, 1⟩]

theorem claim_C9_witness :
    (3:ℕ) ≤ 4 ∧ rollingReg 3 df2W = .ok [none, none] ∧
      rollingReg 4 df2W = .ok [none, none] ∧
      undefCount [none, none] ≤ undefCount [none, none] :=
  ⟨by decide, by decide, by decide,
    @claim_C9_min_periods_monotone 3 4 df2W [none, none] [none, none]
      (by decide) (by decide) (by decide)⟩

theorem windowDf_length_antitone {df : List Row} {t1 t2 : Timestamp}
    (hle : t1.le t2) (ht : t1.time = t2.time) :
    (windowDf df t2).length ≤ (windowDf df t1).length := by
  rw [windowDf, windowDf, ← List.countP_eq_length_filter, ← List.countP_eq_length_filter]
  apply List.countP_mono_left
  intro a _ ha
  simp only [decide_eq_true_eq] at ha ⊢
  exact Timestamp.le_trans (Timestamp.subMonths_le_subMonths 3 hle ht) ha

/-- C10 amended: when all rows of the aligned series carry the same time of
day (for example pure dates), the rows with a defined regression record form
a prefix of the series and the NaN rows a contiguous suffix: the window
start `t - 3 months` is then monotone in `t`, so windows only shrink as `t`
advances.  (With distinct intraday times the end-of-month clamp of
`pd.DateOffset` can reorder two window starts and break the prefix shape —
see the counterexample.) -/
theorem claim_C10_prefix_same_time {p : ℕ} {df : List Row}
    {r : List (Option (ℚ × ℚ))} {i j : ℕ}
    (hsort : df.Pairwise rowLe)
    (htime : ∀ q ∈ df, ∀ s ∈ df, q.ts.time = s.ts.time)
    (h : rollingReg p df = .ok r) (hij : i ≤ j)
    (hj : (r.getD j none).isSome = true) :
    (r.getD i none).isSome = true := by
  have hlen := rollingReg_length h
  have hjr : j < r.length := by
    by_contra hout
    rw [List.getD_eq_getElem?_getD, List.getElem?_eq_none (by omega)] at hj
    simp at hj
  have hir : i < r.length := lt_of_le_of_lt hij hjr
  have hjd : j < df.length := by omega
  have hid : i < df.length := by omega
  rw [List.getD_eq_getElem?_getD, List.getElem?_eq_getElem hjr] at hj
  rw [List.getD_eq_getElem?_getD, List.getElem?_eq_getElem hir]
  have hgetj := rollingReg_get_isNone h j hjd hjr
  have hgeti := rollingReg_get_isNone h i hid hir
  simp only [List.get_eq_getElem] at hgetj hgeti
  have hj2 : underPred p df df[j] = false := by
    rw [← hgetj]
    simp only [Option.getD_some] at hj
    rw [Option.isNone_eq_false_iff]
    exact hj
  have hts : (df.get ⟨i, hid⟩).ts.le (df.get ⟨j, hjd⟩).ts := by
    rcases Nat.lt_or_ge i j with hlt | hge
    · exact List.pairwise_iff_get.mp hsort ⟨i, hid⟩ ⟨j, hjd⟩ hlt
    · have heq : i = j := by omega
      subst heq
      exact Timestamp.le_refl _
  have hmem_i : df.get ⟨i, hid⟩ ∈ df := List.get_mem df i hid
  have hmem_j : df.get ⟨j, hjd⟩ ∈ df := List.get_mem df j hjd
  have hanti := @windowDf_length_antitone df _ _ hts
    (htime _ hmem_i _ hmem_j)
  have hi2 : underPred p df df[i] = false := by
    simp only [List.get_eq_getElem] at hanti
    simp only [underPred, decide_eq_false_iff_not] at hj2 ⊢
    omega
  rw [Option.getD_some, ← Option.isNone_eq_false_iff, hgeti, hi2]

theorem windowDf_eq_of_full {df : List Row} {t : Timestamp}
    (h : df.length ≤ (windowDf df t).length) : windowDf df t = df :=
  List.Sublist.eq_of_length (List.filter_sublist df)
    (le_antisymm (List.Sublist.length_le (List.filter_sublist df)) h)

/-- Concrete intraday timestamps: row 0 at Feb 29 2024 00:30, rows 1-47
through March and April 2024 at midnight, row 48 at May 30 2024 01:00 and
row 49 at May 31 2024 00:00.  Subtracting three months sends row 48 to
Feb 29 01:00 but row 49 to Feb 29 00:00, so the later row has the earlier
window start. -/
def tsC10 (i : ℕ) : Timestamp :=
  if i = 0 then ⟨24289, 29, 1800⟩
  else if i ≤ 31 then ⟨24290, i, 0⟩
  else if i ≤ 47 then ⟨24291, i - 31, 0⟩
  else if i = 48 then ⟨24292, 30, 3600⟩
  else ⟨24292, 31, 0⟩

/-- Fifty aligned rows with intraday timestamps near a month-end clamp. -/
def dfC10 : List Row := (List.range 50).map (fun i => ⟨tsC10 i, (i : ℚ), 0⟩)

/-- C10 is false as stated: on this sorted 50-row aligned series the rolling
regression with the app's `min_periods = 50` leaves row 48 undefined while
row 49 is defined, so the defined rows are not a prefix. -/
theorem claim_C10_counterexample :
    dfC10.Pairwise rowLe ∧
    ∃ r, rollingReg minPeriodsApp dfC10 = .ok r ∧
      (r.getD 48 none).isSome = false ∧ (r.getD 49 none).isSome = true := by
  refine ⟨by decide, ?_⟩
  have hall : ∀ a ∈ dfC10, ∃ b, fitRow minPeriodsApp dfC10 a.ts = .ok b := by
    intro a _
    by_cases hlt : (windowDf dfC10 a.ts).length < minPeriodsApp
    · exact ⟨none, fitRow_of_lt hlt⟩
    · have hfull : windowDf dfC10 a.ts = dfC10 := by
        apply windowDf_eq_of_full
        have h2 : dfC10.length = 50 := by decide
        rw [h2]
        rw [minPeriodsApp] at hlt
        omega
      rw [fitRow_of_ge hlt, hfull]
      have hpair : ∃ q ∈ dfC10.map Row.leg, ∃ w ∈ dfC10.map Row.leg, ¬ q = w := by decide
      obtain ⟨mb, hmb⟩ := polyfit_ok_of_pair hpair
      exact ⟨some mb, by rw [hmb]; rfl⟩
  obtain ⟨r, hr⟩ := exceptMap_ok_of_all hall
  have hr2 : rollingReg minPeriodsApp dfC10 = .ok r := by
    rw [rollingReg]; exact hr
  have hdlen : dfC10.length = 50 := by decide
  have hrlen : r.length = 50 := by rw [rollingReg_length hr2, hdlen]
  have h48 := rollingReg_get_isNone hr2 48 (by omega) (by omega)
  have h49 := rollingReg_get_isNone hr2 49 (by omega) (by omega)
  have hc48 : underPred minPeriodsApp dfC10 (dfC10.get ⟨48, by decide⟩) = true := by
    decide
  have hc49 : underPred minPeriodsApp dfC10 (dfC10.get ⟨49, by decide⟩) = false := by
    decide
  refine ⟨r, hr2, ?_, ?_⟩
  · have hget : r.getD 48 none = r.get ⟨48, by omega⟩ := by
      rw [List.getD_eq_getElem?_getD, List.getElem?_eq_getElem (by omega : 48 < r.length)]
      rfl
    rw [hget]
    have h3 : (r.get ⟨48, by omega⟩).isNone = true := by rw [h48]; exact hc48
    rw [Option.isNone_iff_eq_none.mp h3]
    rfl
  · have hget : r.getD 49 none = r.get ⟨49, by omega⟩ := by
      rw [List.getD_eq_getElem?_getD, List.getElem?_eq_getElem (by omega : 49 < r.length)]
      rfl
    rw [hget]
    have h3 : (r.get ⟨49, by omega⟩).isNone = false := by rw [h49]; exact hc49
    rw [← Option.isNone_eq_false_iff]
    exact h3

theorem claim_C10_witness :
    df2W.Pairwise rowLe ∧ (∀ q ∈ df2W, ∀ s ∈ df2W, q.ts.time = s.ts.time) ∧
    rollingReg 1 df2W = .ok [some (1, 0), some (1, 0)] ∧ (0:ℕ) ≤ 1 ∧
    (([some (1, 0), some (1, 0)] : List (Option (ℚ × ℚ))).getD 1 none).isSome = true ∧
    (([some (1, 0), some (1, 0)] : List (Option (ℚ × ℚ))).getD 0 none).isSome = true := by
  have hf1 : fitRow 1 df2W ⟨24288,1,0⟩ = .ok (some (1, 0)) := by
    have hw : windowDf df2W ⟨24288,1,0⟩ = df2W := by decide
    have hlen : ¬ (windowDf df2W ⟨24288,1,0⟩).length < 1 := by decide
    rw [fitRow]
    simp only [hlen, if_false, hw]
    norm_num [df2W, polyfit, xbarOf, ybarOf, sxxOf, sxyOf, Except.map]
  have hf2 : fitRow 1 df2W ⟨24288,2,0⟩ = .ok (some (1, 0)) := by
    have hw : windowDf df2W ⟨24288,2,0⟩ = df2W := by decide
    have hlen : ¬ (windowDf df2W ⟨24288,2,0⟩).length < 1 := by decide
    rw [fitRow]
    simp only [hlen, if_false, hw]
    norm_num [df2W, polyfit, xbarOf, ybarOf, sxxOf, sxyOf, Except.map]
  have hroll : rollingReg 1 df2W = .ok [some (1, 0), some (1, 0)] := by
    simp only [df2W] at hf1 hf2
    rw [rollingReg]
    simp [exceptMap, df2W, hf1, hf2]
  refine ⟨by decide, by decide, hroll, by decide, by decide, ?_⟩
  exact @claim_C10_prefix_same_time 1 df2W [some (1, 0), some (1, 0)] 0 1
    (by decide) (by decide) hroll (by decide) (by decide)

end DFly

namespace DFly

/-- Dates Jan 1 2024 through Feb 19 2024, one per day. -/
def tsC1 (i : ℕ) : Timestamp :=
  if i ≤ 30 then ⟨24288, i + 1, 0⟩ else ⟨24289, i - 30, 0⟩

/-- Fifty daily aligned rows with `leg = fly = i`. -/
def dfC1 : List Row := (List.range 50).map (fun i => ⟨tsC1 i, (i : ℚ), (i : ℚ)⟩)

/-- The first timestamp of `dfC1` (Jan 1 2024). -/
def t0C1 : Timestamp := ⟨24288, 1, 0⟩

/-- Modelled from the spec: the trailing window of rows with timestamp in
`[t - window_months calendar months, t]` inclusive that the specification
prescribes for the fit at `t` — unlike the code's `windowDf`, bounded above
by `t`. -/
def specWindow (df : List Row) (t : Timestamp) : List Row :=
  df.filter (fun r => decide ((t.subMonths 3).le r.ts) && decide (r.ts.le t))

/-- C1 fails on the code: for the first row of `dfC1` the spec's window
`[t - 3 months, t]` holds a single row (so with `min_periods = 50` the fit
should not exist), yet the code's window filter keeps all fifty rows — the
forty-nine future rows included — and produces a defined fit. -/
theorem claim_C1_future_rows_in_fit :
    (specWindow dfC1 t0C1).length = 1 ∧
    (windowDf dfC1 t0C1).length = 50 ∧
    ∃ mb, fitRow minPeriodsApp dfC1 t0C1 = .ok (some mb) := by
  refine ⟨by decide, by decide, ?_⟩
  have hlt : ¬ (windowDf dfC1 t0C1).length < minPeriodsApp := by decide
  rw [fitRow_of_ge hlt]
  have hpair : ∃ a ∈ (windowDf dfC1 t0C1).map Row.leg,
      ∃ b ∈ (windowDf dfC1 t0C1).map Row.leg, ¬ a = b := by decide
  obtain ⟨mb, hmb⟩ := polyfit_ok_of_pair hpair
  exact ⟨mb, by rw [hmb]; rfl⟩

end DFly

namespace DFly

theorem fitRow_const_leg {p : ℕ} {df : List Row} {t : Timestamp}
    {c : ℚ} (hlt : ¬ (windowDf df t).length < p) (hne : windowDf df t ≠ [])
    (hall : ∀ a ∈ (windowDf df t).map Row.leg, a = c) (hc : c ≠ 0) :
    fitRow p df t =
      .ok (some
        (ybarOf ((windowDf df t).map Row.leg) ((windowDf df t).map Row.fly) / (2 * c),
         ybarOf ((windowDf df t).map Row.leg) ((windowDf df t).map Row.fly) / 2)) := by
  rw [fitRow_of_ge hlt]
  have hne2 : (windowDf df t).map Row.leg ≠ [] := by
    simpa using hne
  rw [polyfit_const hne2 hall hc]
  rfl

/-- C4 amended: a window with at least `min_periods` rows whose leg values
all equal a nonzero constant `c` yields a DEFINED record — numpy's scaled
minimum-norm fallback `(ȳ/(2c), ȳ/2)` — with no exception and no
infinite/NaN value; the code never signals the degenerate fit as
undefined. -/
theorem claim_C4_degenerate_is_defined {p : ℕ} {df : List Row} {t : Timestamp}
    {c : ℚ} (hlt : ¬ (windowDf df t).length < p) (hne : windowDf df t ≠ [])
    (hall : ∀ a ∈ (windowDf df t).map Row.leg, a = c) (hc : c ≠ 0) :
    fitRow p df t =
      .ok (some
        (ybarOf ((windowDf df t).map Row.leg) ((windowDf df t).map Row.fly) / (2 * c),
         ybarOf ((windowDf df t).map Row.leg) ((windowDf df t).map Row.fly) / 2)) :=
  fitRow_const_leg hlt hne hall hc

/-- Fifty daily rows whose leg value is constantly `1` and whose fly value
is constantly `6`: every window is fully populated and degenerate. -/
def dfC4 : List Row := (List.range 50).map (fun i => ⟨tsC1 i, 1, 6⟩)

/-- C4 is false as stated: on `dfC4` the window of the first row holds all
fifty rows (`min_periods` satisfied) and all leg values are identical, yet
the code produces the DEFINED record `(3, 3)` rather than an undefined
one. -/
theorem claim_C4_counterexample :
    (∀ a ∈ (windowDf dfC4 t0C1).map Row.leg, a = 1) ∧
    ¬ (windowDf dfC4 t0C1).length < minPeriodsApp ∧
    fitRow minPeriodsApp dfC4 t0C1 = .ok (some (3, 3)) := by
  have hlt : ¬ (windowDf dfC4 t0C1).length < minPeriodsApp := by decide
  have hall : ∀ a ∈ (windowDf dfC4 t0C1).map Row.leg, a = 1 := by decide
  refine ⟨hall, hlt, ?_⟩
  rw [fitRow_const_leg hlt (by decide) hall (by decide)]
  have h6 : ∀ a ∈ (windowDf dfC4 t0C1).map Row.fly, a = 6 := by decide
  have hsum := sum_of_all_eq h6
  have hleny : (((windowDf dfC4 t0C1).map Row.fly).length : ℚ) = 50 := by decide
  have hlenx : (((windowDf dfC4 t0C1).map Row.leg).length : ℚ) = 50 := by decide
  rw [ybarOf, hsum, hleny, hlenx]
  norm_num

end DFly

namespace DFly

/-- C6: on an aligned series satisfying `fly = 2*leg + 5` exactly, every row
whose (code) window holds at least `min_periods` rows and has non-constant
leg values gets the exact fit `slope = 2`, `intercept = 5`, and its residual
is `0`. -/
theorem claim_C6_regression_exactness {p : ℕ} {df : List Row} {r : Row}
    (hlin : ∀ q ∈ df, q.fly = 2 * q.leg + 5) (hmem : r ∈ df)
    (hwin : ¬ (windowDf df r.ts).length < p)
    (hnc : ∃ a ∈ (windowDf df r.ts).map Row.leg,
      ∃ b ∈ (windowDf df r.ts).map Row.leg, ¬ a = b) :
    fitRow p df r.ts = .ok (some (2, 5)) ∧ rowResidual r (2, 5) = 0 := by
  constructor
  · rw [fitRow_of_ge hwin]
    have hmapeq : (windowDf df r.ts).map Row.fly
        = ((windowDf df r.ts).map Row.leg).map (fun a => 2 * a + 5) := by
      rw [List.map_map]
      exact List.map_congr_left
        (fun q hq => hlin q (List.mem_of_mem_filter hq))
    rw [hmapeq]
    have hne : (windowDf df r.ts).map Row.leg ≠ [] := by
      rintro hnil
      rw [hnil] at hnc
      simp at hnc
    rw [polyfit_linear 2 5 hne hnc]
    rfl
  · rw [rowResidual, hlin r hmem]
    ring

/-- Two aligned rows satisfying `fly = 2*leg + 5`. -/
def dfC6 : List Row := [⟨⟨24288,1,0⟩, 0, 5⟩, ⟨⟨24288,2,0⟩, 1, 7⟩]

theorem claim_C6_witness :
    (∀ q ∈ dfC6, q.fly = 2 * q.leg + 5) ∧
    (⟨⟨24288,1,0⟩, 0, 5⟩ : Row) ∈ dfC6 ∧
    fitRow 2 dfC6 (⟨24288,1,0⟩ : Timestamp) = .ok (some (2, 5)) ∧
    rowResidual (⟨⟨24288,1,0⟩, 0, 5⟩ : Row) (2, 5) = 0 := by
  have hlin : ∀ q ∈ dfC6, q.fly = 2 * q.leg + 5 := by
    simp [dfC6]
    norm_num
  have hres := claim_C6_regression_exactness (p := 2) hlin
    (show (⟨⟨24288,1,0⟩, 0, 5⟩ : Row) ∈ dfC6 by decide)
    (by decide) (by decide)
  exact ⟨hlin, by decide, hres.1, hres.2⟩

end DFly

namespace DFly

theorem claim_C4_witness :
    (¬ (windowDf dfC4 t0C1).length < minPeriodsApp) ∧ ((1:ℚ) ≠ 0) ∧
    fitRow minPeriodsApp dfC4 t0C1 =
      .ok (some
        (ybarOf ((windowDf dfC4 t0C1).map Row.leg)
            ((windowDf dfC4 t0C1).map Row.fly) / (2 * 1),
         ybarOf ((windowDf dfC4 t0C1).map Row.leg)
            ((windowDf dfC4 t0C1).map Row.fly) / 2)) :=
  ⟨by decide, by decide,
    claim_C4_degenerate_is_defined (by decide) (by decide) (by decide) (by decide)⟩

/-- A fly series with a single row at Jan 1 2024. -/
def flyC2 : Series := [(⟨24288, 1, 0⟩, some 1)]

/-- A leg series with a single row at Feb 1 2024 — no common timestamp. -/
def legC2 : Series := [(⟨24289, 1, 0⟩, some 2)]

/-- C2 fails on the code: two series with no common timestamp do align to an
empty AlignedSeries, but the script then raises `IndexError` at
`df["residual"].iloc[-1]` (line 58) instead of reporting an all-undefined
summary without exception. -/
theorem claim_C2_empty_input_raises :
    align flyC2 legC2 = .ok [] ∧
    appRun flyC2 legC2 = .error "single positional indexer is out-of-bounds" :=
  ⟨rfl, rfl⟩

end DFly

namespace DFly

theorem map_eq_ok {α β : Type _} {f : α → β} {e : Except String α} {x : β}
    (h : e.map f = .ok x) : ∃ y, e = .ok y ∧ x = f y := by
  cases e with
  | error s => simp [Except.map] at h
  | ok y =>
    refine ⟨y, rfl, ?_⟩
    simp only [Except.map] at h
    injection h with h2
    exact h2.symm

theorem residualCol_eq {p : ℕ} {df : List Row} {rs : List (Option ℚ)}
    (h : residualCol p df = .ok rs) :
    ∃ bs, rollingReg p df = .ok bs ∧
      rs = (df.zip bs).map (fun q => q.2.map (rowResidual q.1)) := by
  rw [residualCol] at h
  obtain ⟨bs, hbs, hx⟩ := map_eq_ok h
  exact ⟨bs, hbs, hx⟩

theorem latest_none_of_last_under {p : ℕ} {df : List Row} {rs : List (Option ℚ)}
    (h : residualCol p df = .ok rs) (hne : df ≠ [])
    (hlast : (windowDf df (df.getLast hne).ts).length < p) :
    ilocLast rs = .ok none := by
  obtain ⟨bs, hbs, hrs⟩ := residualCol_eq h
  have hblen : bs.length = df.length := rollingReg_length hbs
  have hdpos : 0 < df.length := List.length_pos.mpr hne
  have hi : df.length - 1 < df.length := by omega
  have hib : df.length - 1 < bs.length := by omega
  have hlasteq : df.get ⟨df.length - 1, hi⟩ = df.getLast hne := by
    simp only [List.get_eq_getElem]
    rw [List.getLast_eq_getElem]
  have hu : underPred p df (df.get ⟨df.length - 1, hi⟩) = true := by
    simp only [underPred, decide_eq_true_eq]
    rw [hlasteq]
    exact hlast
  have hbn := rollingReg_get_isNone hbs (df.length - 1) hi hib
  rw [hu] at hbn
  have hbnone : bs.get ⟨df.length - 1, hib⟩ = none := Option.isNone_iff_eq_none.mp hbn
  have hzlen : (df.zip bs).length = df.length := by
    rw [List.length_zip]; omega
  have hrslen : rs.length = df.length := by
    rw [hrs, List.length_map]; exact hzlen
  have hlt : df.length - 1 < rs.length := by omega
  have hzlt : df.length - 1 < (df.zip bs).length := by omega
  have hgl : rs.getLast? = some none := by
    rw [List.getLast?_eq_getElem?, hrslen, hrs, List.getElem?_map,
      List.getElem?_eq_getElem hzlt, List.getElem_zip, Option.map_some']
    simp only [List.get_eq_getElem] at hbnone
    rw [hbnone]
    rfl
  rw [ilocLast, hgl]

/-- C3 amended: `latest` is the last element of the UNFILTERED residual
column: the model returns exactly the column's last entry, and in particular
when the chronologically last row's window is under-populated the reported
latest residual is NaN, even when earlier defined residuals exist. -/
theorem claim_C3_latest_is_unfiltered {p : ℕ} {df : List Row} {rs : List (Option ℚ)}
    (h : residualCol p df = .ok rs) (hne : df ≠ []) :
    (∃ hne2 : rs ≠ [], ilocLast rs = .ok (rs.getLast hne2)) ∧
    ((windowDf df (df.getLast hne).ts).length < p → ilocLast rs = .ok none) := by
  constructor
  · obtain ⟨bs, hbs, hrs⟩ := residualCol_eq h
    have hblen : bs.length = df.length := rollingReg_length hbs
    have hrslen : rs.length = df.length := by
      rw [hrs, List.length_map, List.length_zip]; omega
    have hne2 : rs ≠ [] := by
      intro h0
      rw [h0] at hrslen
      simp at hrslen
      exact hne (List.length_eq_zero.mp hrslen.symm)
    refine ⟨hne2, ?_⟩
    rw [ilocLast, List.getLast?_eq_getLast rs hne2]
  · intro hlast
    exact latest_none_of_last_under h hne hlast

end DFly

namespace DFly

theorem claim_C3_witness :
    residualCol 3 df2W = .ok [none, none] ∧ df2W ≠ [] ∧
    ilocLast ([none, none] : List (Option ℚ)) = .ok none :=
  ⟨by decide, by decide,
    (@claim_C3_latest_is_unfiltered 3 df2W [none, none] (by decide) (by decide)).2
      (by decide)⟩

/-- The fifty daily rows of `dfC1` plus one row far in the future
(Aug 1 2024), still with `leg = fly`. -/
def dfC3 : List Row := dfC1 ++ [⟨⟨24295, 1, 0⟩, 50, 50⟩]

theorem two_mem_of_nodup {l : List ℚ} (hnd : l.Nodup) (hlen : 2 ≤ l.length) :
    ∃ a ∈ l, ∃ b ∈ l, ¬ a = b := by
  match l with
  | [] => simp at hlen
  | [a] => simp at hlen
  | a :: b :: t =>
    refine ⟨a, by simp, b, by simp, ?_⟩
    intro hab
    rw [List.nodup_cons] at hnd
    exact hnd.1 (by simp [hab])

/-- C3 is false as stated: on `dfC3` the residual column has fifty finite
entries, yet the reported latest residual is NaN, because the
chronologically last row's window is under-populated and the code takes the
unfiltered last entry. -/
theorem claim_C3_counterexample :
    ∃ rs, residualCol minPeriodsApp dfC3 = .ok rs ∧
      ilocLast rs = .ok none ∧ finiteVals rs ≠ [] := by
  have hnodup : (dfC3.map Row.leg).Nodup := by decide
  have hall : ∀ a ∈ dfC3, ∃ b, fitRow minPeriodsApp dfC3 a.ts = .ok b := by
    intro a _
    by_cases hlt : (windowDf dfC3 a.ts).length < minPeriodsApp
    · exact ⟨none, fitRow_of_lt hlt⟩
    · rw [fitRow_of_ge hlt]
      have hsub : ((windowDf dfC3 a.ts).map Row.leg).Sublist (dfC3.map Row.leg) :=
        (List.filter_sublist _).map Row.leg
      have hnd2 : ((windowDf dfC3 a.ts).map Row.leg).Nodup := hnodup.sublist hsub
      have hlen2 : 2 ≤ ((windowDf dfC3 a.ts).map Row.leg).length := by
        rw [List.length_map]
        rw [minPeriodsApp] at hlt
        omega
      obtain ⟨mb, hmb⟩ := polyfit_ok_of_pair (two_mem_of_nodup hnd2 hlen2)
      exact ⟨some mb, by rw [hmb]; rfl⟩
  obtain ⟨bs, hbs0⟩ := exceptMap_ok_of_all hall
  have hbs : rollingReg minPeriodsApp dfC3 = .ok bs := by rw [rollingReg]; exact hbs0
  have hrescol : residualCol minPeriodsApp dfC3 =
      .ok ((dfC3.zip bs).map (fun q => q.2.map (rowResidual q.1))) := by
    rw [residualCol, hbs]
    rfl
  refine ⟨_, hrescol, ?_, ?_⟩
  · apply latest_none_of_last_under hrescol (by decide)
    decide
  · have hblen : bs.length = dfC3.length := rollingReg_length hbs
    have hd0 : 0 < dfC3.length := by decide
    have hb0 : 0 < bs.length := by omega
    have hu0 : underPred minPeriodsApp dfC3 (dfC3.get ⟨0, by decide⟩) = false := by decide
    have hbn := rollingReg_get_isNone hbs 0 hd0 hb0
    rw [hu0] at hbn
    obtain ⟨mb, hmb⟩ : ∃ mb, bs.get ⟨0, hb0⟩ = some mb := by
      cases hx : bs.get ⟨0, hb0⟩ with
      | none => rw [hx] at hbn; simp at hbn
      | some mb => exact ⟨mb, rfl⟩
    have hz0 : 0 < (dfC3.zip bs).length := by
      rw [List.length_zip]
      omega
    have hrs0 : ((dfC3.zip bs).map (fun q => q.2.map (rowResidual q.1)))[0]? =
        some (some (rowResidual dfC3[0] mb)) := by
      rw [List.getElem?_map, List.getElem?_eq_getElem hz0, List.getElem_zip, Option.map_some']
      simp only [List.get_eq_getElem] at hmb
      rw [hmb]
      rfl
    have hmem : some (rowResidual dfC3[0] mb) ∈
        ((dfC3.zip bs).map (fun q => q.2.map (rowResidual q.1))) :=
      List.getElem?_mem hrs0
    have hfin : rowResidual dfC3[0] mb ∈
        finiteVals ((dfC3.zip bs).map (fun q => q.2.map (rowResidual q.1))) := by
      rw [finiteVals]
      exact List.mem_filterMap.mpr ⟨_, hmem, rfl⟩
    exact List.ne_nil_of_mem hfin

end DFly

namespace DFly

theorem finiteVals_mem {rs : List (Option ℚ)} {l : ℚ} (h : some l ∈ rs) :
    l ∈ finiteVals rs := by
  rw [finiteVals]
  exact List.mem_filterMap.mpr ⟨some l, h, rfl⟩

theorem muOf_of_ne {rs : List (Option ℚ)} (h : (finiteVals rs).length ≠ 0) :
    muOf rs = some ((finiteVals rs).sum / (finiteVals rs).length) := by
  rw [muOf]
  simp [h]

theorem sigmaSq_zero_all_eq {rs : List (Option ℚ)} (h : sigmaSqOf rs = some 0) :
    2 ≤ (finiteVals rs).length ∧
    ∀ a ∈ finiteVals rs, a = (finiteVals rs).sum / (finiteVals rs).length := by
  rw [sigmaSqOf] at h
  by_cases hlen : (finiteVals rs).length < 2
  · simp [hlen] at h
  · simp only [hlen, if_false] at h
    injection h with h2
    have hn1 : ((finiteVals rs).length : ℚ) - 1 ≠ 0 := by
      have : (2:ℚ) ≤ ((finiteVals rs).length : ℚ) := by
        exact_mod_cast Nat.le_of_not_lt hlen
      intro h0
      rw [sub_eq_zero] at h0
      rw [h0] at this
      norm_num at this
    have hsum : ((finiteVals rs).map
        (fun a => (a - (finiteVals rs).sum / (finiteVals rs).length) ^ 2)).sum = 0 := by
      rcases div_eq_zero_iff.mp h2 with h3 | h3
      · exact h3
      · exact absurd h3 hn1
    exact ⟨Nat.le_of_not_lt hlen, eq_of_sum_sq_zero hsum⟩

/-- C7 amended: on a NONEMPTY residual column the z-score is the IEEE
quotient `(latest - mu) / sigma`: whenever `sigma` is defined and nonzero
the z-score is the finite real `(latest - mu)/√(sigma²)`, and whenever
`sigma` is zero or undefined the z-score is NaN — never an infinity and
never an exception.  (On an EMPTY residual column — zero finite residuals,
also inside the claim's "fewer than 2" scope — `sigma` is undefined but the
code raises `IndexError` at `iloc[-1]` before the z-score is computed, so
the original unrestricted claim is false; see the counterexample.) -/
theorem claim_C7_zscore (rs : List (Option ℚ)) (hne : rs ≠ []) :
    (∀ l m v, rs.getLast? = some (some l) → muOf rs = some m →
      sigmaSqOf rs = some v → v ≠ 0 →
      zScoreOf rs = .ok (.fin (((l:ℝ) - (m:ℝ)) / Real.sqrt (v:ℝ)))) ∧
    ((sigmaSqOf rs = some 0 ∨ sigmaSqOf rs = none) → zScoreOf rs = .ok .nan) := by
  constructor
  · intro l m v hl hm hv hv0
    rw [zScoreOf, ilocLast, hl, hm, hv]
    simp only [Except.map]
    rw [zvalOf]
    simp [hv0]
  · intro hcase
    have hlast : rs.getLast? = some (rs.getLast hne) := List.getLast?_eq_getLast rs hne
    rw [zScoreOf, ilocLast, hlast]
    simp only [Except.map]
    rcases hcase with hv | hv
    · obtain ⟨hlen2, hall⟩ := sigmaSq_zero_all_eq hv
      have hmu : muOf rs = some ((finiteVals rs).sum / (finiteVals rs).length) :=
        muOf_of_ne (by omega)
      rw [hv, hmu]
      cases hgl : rs.getLast hne with
      | none => rfl
      | some l =>
        have hmem : some l ∈ rs := by
          rw [← hgl]
          exact List.getLast_mem hne
        have hleq := hall l (finiteVals_mem hmem)
        rw [zvalOf]
        simp [hleq]
    · rw [hv]
      cases rs.getLast hne with
      | none => cases muOf rs <;> rfl
      | some l => cases muOf rs <;> rfl

/-- C7 is false as stated: the empty residual column has fewer than two
finite residuals, so `std_dev` is undefined, yet the z-score computation is
an exception (`IndexError` from `iloc[-1]` on line 58), not an undefined
value — and the empty column is reachable, e.g. from two input series with
no common timestamp. -/
theorem claim_C7_counterexample :
    sigmaSqOf ([] : List (Option ℚ)) = none ∧
    zScoreOf ([] : List (Option ℚ)) = .error "single positional indexer is out-of-bounds" ∧
    appRun flyC2 legC2 = .error "single positional indexer is out-of-bounds" :=
  ⟨rfl, rfl, rfl⟩

/-- The residual column `[0, 2]`, mean `1`, sample variance `2`. -/
def rsC7 : List (Option ℚ) := [some 0, some 2]

theorem claim_C7_witness :
    rsC7 ≠ [] ∧ rsC7.getLast? = some (some 2) ∧
    muOf rsC7 = some 1 ∧ sigmaSqOf rsC7 = some 2 ∧ (2:ℚ) ≠ 0 ∧
    zScoreOf rsC7 = .ok (.fin ((((2:ℚ):ℝ) - ((1:ℚ):ℝ)) / Real.sqrt ((2:ℚ):ℝ))) := by
  have hfv : finiteVals rsC7 = [0, 2] := rfl
  have hmu : muOf rsC7 = some 1 := by
    rw [muOf, hfv]
    norm_num
  have hsg : sigmaSqOf rsC7 = some 2 := by
    rw [sigmaSqOf, hfv]
    norm_num
  exact ⟨by decide, by decide, hmu, hsg, by norm_num,
    (claim_C7_zscore rsC7 (by decide)).1 2 1 2 (by decide) hmu hsg (by norm_num)⟩

end DFly

namespace DFly

theorem list_sum_div (l : List ℝ) (c : ℝ) :
    (l.map (fun a => a / c)).sum = l.sum / c := by
  induction l with
  | nil => simp
  | cons a t ih => simp [ih, add_div]

theorem qm2_nonneg (v : List ℚ) : 0 ≤ qm2 v := by
  rw [qm2]
  apply div_nonneg (sum_sq_nonneg _ _)
  positivity

theorem qm2_pos {v : List ℚ} (hm2 : qm2 v ≠ 0) : 0 < qm2 v :=
  lt_of_le_of_ne (qm2_nonneg v) (Ne.symm hm2)

/-- C8: the kurtosis the code reports (scipy `fisher=False`, `bias=True`) is
`m4 / m2²` with no subtraction of 3, and this equals the spec's fourth
standardized moment `mean(((x - x̄)/σ_pop)⁴)` — the raw, non-excess
convention under which a normal sample scores near 3 rather than 0. -/
theorem claim_C8_kurtosis_raw (v : List ℚ) (hne : v ≠ []) (hm2 : qm2 v ≠ 0) :
    kurtRawOf v = some (qm4 v / qm2 v ^ 2) ∧
    ((qm4 v / qm2 v ^ 2 : ℚ) : ℝ) = specKurt v := by
  have hlen : v.length ≠ 0 := by simpa using hne
  constructor
  · rw [kurtRawOf]
    simp [hlen, hm2]
  · have hpos : 0 < qm2 v := qm2_pos hm2
    have hposR : (0:ℝ) < ((qm2 v : ℚ) : ℝ) := by exact_mod_cast hpos
    have hsq : Real.sqrt ((qm2 v : ℚ) : ℝ) ^ 4 = ((qm2 v : ℚ) : ℝ) ^ 2 := by
      rw [show (4:ℕ) = 2 * 2 from rfl, pow_mul, Real.sq_sqrt hposR.le]
    rw [specKurt]
    have hpt : ∀ a ∈ v,
        ((((a:ℚ):ℝ) - ((qmean v : ℚ):ℝ)) / Real.sqrt ((qm2 v : ℚ):ℝ)) ^ 4
          = (((a - qmean v) ^ 4 : ℚ) : ℝ) / ((qm2 v : ℚ):ℝ) ^ 2 := by
      intro a _
      rw [div_pow, hsq]
      push_cast
      ring
    rw [List.map_congr_left hpt]
    have hcomp : v.map (fun a => (((a - qmean v) ^ 4 : ℚ) : ℝ) / ((qm2 v : ℚ):ℝ) ^ 2)
        = ((v.map (fun a => ((a - qmean v) ^ 4 : ℚ))).map (fun (q : ℚ) => (q : ℝ))).map
            (fun b => b / ((qm2 v : ℚ):ℝ) ^ 2) := by
      rw [List.map_map, List.map_map]
      rfl
    rw [hcomp, list_sum_div]
    have hsum : ((v.map (fun a => ((a - qmean v) ^ 4 : ℚ))).map (fun (q : ℚ) => (q : ℝ))).sum
        = (((v.map (fun a => ((a - qmean v) ^ 4 : ℚ))).sum : ℚ) : ℝ) :=
      (map_list_sum (Rat.castHom ℝ) _).symm
    rw [hsum, qm4]
    push_cast
    ring

/-- The sample `[0, 2]`: `m2 = 1`, `m4 = 1`, kurtosis `1`. -/
def vC8 : List ℚ := [0, 2]

theorem claim_C8_witness :
    vC8 ≠ [] ∧ qm2 vC8 = 1 ∧ kurtRawOf vC8 = some (qm4 vC8 / qm2 vC8 ^ 2) ∧
    ((qm4 vC8 / qm2 vC8 ^ 2 : ℚ) : ℝ) = specKurt vC8 := by
  have hm2 : qm2 vC8 = 1 := by
    rw [qm2, qmean]
    norm_num [vC8]
  have h := claim_C8_kurtosis_raw vC8 (by decide) (by rw [hm2]; norm_num)
  exact ⟨by decide, hm2, h.1, h.2⟩

end DFly

namespace DFly

instance : IsAntisymm Timestamp Timestamp.le := ⟨fun _ _ => Timestamp.le_antisymm⟩

theorem tsMem_iff {s : Series} {t : Timestamp} :
    tsMem s t = true ↔ ∃ r ∈ (s : List (Timestamp × Option ℚ)), r.1 = t := by
  rw [tsMem, List.any_eq_true]
  simp

theorem flyCommon_ts_mem {flyS legS : Series} {t : Timestamp} :
    t ∈ (flyCommon flyS legS).map Prod.fst ↔ inCommon flyS legS t = true := by
  rw [flyCommon]
  constructor
  · intro h
    obtain ⟨r, hr, rfl⟩ := List.mem_map.mp h
    have hr2 := (List.perm_insertionSort pairLe _).mem_iff.mp hr
    exact (List.mem_filter.mp hr2).2
  · intro h
    have hf : tsMem flyS t = true := by
      rw [inCommon, Bool.and_eq_true] at h
      exact h.1
    obtain ⟨r, hr, hrt⟩ := tsMem_iff.mp hf
    apply List.mem_map.mpr
    refine ⟨r, ?_, hrt⟩
    apply (List.perm_insertionSort pairLe _).mem_iff.mpr
    apply List.mem_filter.mpr
    exact ⟨hr, by rw [hrt]; exact h⟩

theorem legCommon_ts_mem {flyS legS : Series} {t : Timestamp} :
    t ∈ (legCommon flyS legS).map Prod.fst ↔ inCommon flyS legS t = true := by
  rw [legCommon]
  constructor
  · intro h
    obtain ⟨r, hr, rfl⟩ := List.mem_map.mp h
    have hr2 := (List.perm_insertionSort pairLe _).mem_iff.mp hr
    exact (List.mem_filter.mp hr2).2
  · intro h
    have hf : tsMem legS t = true := by
      rw [inCommon, Bool.and_eq_true] at h
      exact h.2
    obtain ⟨r, hr, hrt⟩ := tsMem_iff.mp hf
    apply List.mem_map.mpr
    refine ⟨r, ?_, hrt⟩
    apply (List.perm_insertionSort pairLe _).mem_iff.mpr
    apply List.mem_filter.mpr
    exact ⟨hr, by rw [hrt]; exact h⟩

theorem flyCommon_ts_sorted (flyS legS : Series) :
    ((flyCommon flyS legS).map Prod.fst).Pairwise Timestamp.le := by
  rw [flyCommon, List.pairwise_map]
  exact List.sorted_insertionSort pairLe _

theorem legCommon_ts_sorted (flyS legS : Series) :
    ((legCommon flyS legS).map Prod.fst).Pairwise Timestamp.le := by
  rw [legCommon, List.pairwise_map]
  exact List.sorted_insertionSort pairLe _

theorem flyCommon_ts_nodup {flyS legS : Series}
    (hf : ((flyS : List (Timestamp × Option ℚ)).map Prod.fst).Nodup) :
    ((flyCommon flyS legS).map Prod.fst).Nodup := by
  rw [flyCommon]
  apply (((List.perm_insertionSort pairLe _).map Prod.fst).nodup_iff).mpr
  exact hf.sublist ((List.filter_sublist _).map Prod.fst)

theorem legCommon_ts_nodup {flyS legS : Series}
    (hl : ((legS : List (Timestamp × Option ℚ)).map Prod.fst).Nodup) :
    ((legCommon flyS legS).map Prod.fst).Nodup := by
  rw [legCommon]
  apply (((List.perm_insertionSort pairLe _).map Prod.fst).nodup_iff).mpr
  exact hl.sublist ((List.filter_sublist _).map Prod.fst)

theorem common_key_eq {flyS legS : Series}
    (hf : ((flyS : List (Timestamp × Option ℚ)).map Prod.fst).Nodup)
    (hl : ((legS : List (Timestamp × Option ℚ)).map Prod.fst).Nodup) :
    (flyCommon flyS legS).map Prod.fst = (legCommon flyS legS).map Prod.fst := by
  have hnf := @flyCommon_ts_nodup flyS legS hf
  have hnl := @legCommon_ts_nodup flyS legS hl
  apply List.eq_of_perm_of_sorted (r := Timestamp.le)
  · apply List.perm_of_nodup_nodup_toFinset_eq hnf hnl
    apply Finset.ext
    intro t
    rw [List.mem_toFinset, List.mem_toFinset, flyCommon_ts_mem, legCommon_ts_mem]
  · exact flyCommon_ts_sorted flyS legS
  · exact legCommon_ts_sorted flyS legS

end DFly

namespace DFly

theorem zip_fst_eq {lc fc : List (Timestamp × Option ℚ)}
    (h : lc.map Prod.fst = fc.map Prod.fst) :
    ∀ p ∈ lc.zip fc, p.1.1 = p.2.1 := by
  induction lc generalizing fc with
  | nil => simp
  | cons a t ih =>
    cases fc with
    | nil => simp
    | cons b u =>
      simp only [List.map_cons, List.cons.injEq] at h
      intro p hp
      rw [List.zip_cons_cons] at hp
      rcases List.mem_cons.mp hp with rfl | hp2
      · exact h.1
      · exact ih h.2 p hp2

theorem mkRow_ts {p : (Timestamp × Option ℚ) × (Timestamp × Option ℚ)} {r : Row}
    (h : mkRow p = some r) : r.ts = p.1.1 ∧ p.1.2 = some r.leg ∧ p.2.2 = some r.fly := by
  rcases p with ⟨⟨t1, v1⟩, ⟨t2, v2⟩⟩
  rw [mkRow] at h
  cases v1 with
  | none => exact absurd h (by simp)
  | some lv =>
    cases v2 with
    | none => exact absurd h (by simp)
    | some fv =>
      simp only at h
      injection h with h2
      rw [← h2]
      exact ⟨rfl, rfl, rfl⟩

theorem mkRow_ts_sublist {lc fc : List (Timestamp × Option ℚ)} :
    (((lc.zip fc).filterMap mkRow).map Row.ts).Sublist (lc.map Prod.fst) := by
  induction lc generalizing fc with
  | nil => simp
  | cons a t ih =>
    cases fc with
    | nil => simp
    | cons b u =>
      rw [List.zip_cons_cons, List.filterMap_cons]
      cases hmk : mkRow (a, b) with
      | none =>
        rw [List.map_cons]
        exact (@ih u).cons _
      | some row =>
        rw [List.map_cons, List.map_cons]
        rw [(mkRow_ts hmk).1]
        exact (@ih u).cons₂ _

theorem flyCommon_subset {flyS legS : Series} {q : Timestamp × Option ℚ}
    (h : q ∈ flyCommon flyS legS) : q ∈ flyS := by
  rw [flyCommon] at h
  exact (List.mem_filter.mp ((List.perm_insertionSort pairLe _).mem_iff.mp h)).1

theorem legCommon_subset {flyS legS : Series} {q : Timestamp × Option ℚ}
    (h : q ∈ legCommon flyS legS) : q ∈ legS := by
  rw [legCommon] at h
  exact (List.mem_filter.mp ((List.perm_insertionSort pairLe _).mem_iff.mp h)).1

theorem mem_legCommon {flyS legS : Series} {q : Timestamp × Option ℚ}
    (hq : q ∈ legS) (hc : inCommon flyS legS q.1 = true) :
    q ∈ legCommon flyS legS := by
  rw [legCommon]
  exact (List.perm_insertionSort pairLe _).mem_iff.mpr
    (List.mem_filter.mpr ⟨hq, hc⟩)

end DFly

namespace DFly

/-- C5 amended: for inputs whose per-series timestamps are unique, the
aligned output is strictly sorted by timestamp with no duplicates and its
timestamp set is exactly the intersection of the two series' non-missing
timestamp sets.  (When a timestamp is duplicated the code does NOT collapse
it last-write-wins: equal duplicate multiplicities keep all duplicate rows
and unequal ones make the frame construction fail — see the
counterexample.) -/
theorem claim_C5_alignment_unique {flyS legS : Series}
    (hf : (flyS.map Prod.fst).Nodup) (hl : (legS.map Prod.fst).Nodup) :
    ∃ rows, align flyS legS = .ok rows ∧
      rows.Pairwise (fun a b => a.ts.le b.ts ∧ a.ts ≠ b.ts) ∧
      (∀ t, (∃ r ∈ rows, r.ts = t) ↔
        ((∃ w, (t, some w) ∈ flyS) ∧ (∃ w, (t, some w) ∈ legS))) := by
  have key := common_key_eq hf hl
  refine ⟨List.insertionSort rowLe
      (((legCommon flyS legS).zip (flyCommon flyS legS)).filterMap mkRow),
    by rw [align, if_pos key], ?_, ?_⟩
  · -- strictly sorted
    have hsorted : (List.insertionSort rowLe
        (((legCommon flyS legS).zip (flyCommon flyS legS)).filterMap mkRow)).Pairwise rowLe :=
      List.sorted_insertionSort rowLe _
    have hnd0 : ((((legCommon flyS legS).zip (flyCommon flyS legS)).filterMap mkRow).map
        Row.ts).Nodup :=
      (legCommon_ts_nodup hl).sublist mkRow_ts_sublist
    have hndsort : ((List.insertionSort rowLe
        (((legCommon flyS legS).zip (flyCommon flyS legS)).filterMap mkRow)).map
        Row.ts).Nodup :=
      (((List.perm_insertionSort rowLe _).map Row.ts).nodup_iff).mpr hnd0
    have hne2 := List.pairwise_map.mp hndsort
    exact hsorted.and hne2
  · intro t
    have hperm := (List.perm_insertionSort rowLe
      (((legCommon flyS legS).zip (flyCommon flyS legS)).filterMap mkRow))
    constructor
    · rintro ⟨r, hr, rfl⟩
      have hr0 : r ∈ ((legCommon flyS legS).zip (flyCommon flyS legS)).filterMap mkRow :=
        hperm.mem_iff.mp hr
      obtain ⟨p, hp, hmk⟩ := List.mem_filterMap.mp hr0
      obtain ⟨hts, hleg, hfly⟩ := mkRow_ts hmk
      have hfst := zip_fst_eq key.symm p hp
      obtain ⟨hp1, hp2⟩ := List.of_mem_zip hp
      constructor
      · refine ⟨r.fly, ?_⟩
        have hmem := flyCommon_subset hp2
        have hp2eq : p.2 = (r.ts, some r.fly) := by
          rcases p with ⟨p1, p2⟩
          rcases p2 with ⟨t2, v2⟩
          simp only at hfly hfst ⊢
          rw [Prod.mk.injEq]
          constructor
          · rw [← hfst, ← hts]
          · exact hfly
        rw [← hp2eq]
        exact hmem
      · refine ⟨r.leg, ?_⟩
        have hmem := legCommon_subset hp1
        have hp1eq : p.1 = (r.ts, some r.leg) := by
          rcases p with ⟨p1, p2⟩
          rcases p1 with ⟨t1, v1⟩
          simp only at hleg hts ⊢
          rw [Prod.mk.injEq]
          constructor
          · rw [← hts]
          · exact hleg
        rw [← hp1eq]
        exact hmem
    · rintro ⟨⟨w1, hw1⟩, ⟨w2, hw2⟩⟩
      have hcom : inCommon flyS legS t = true := by
        rw [inCommon, Bool.and_eq_true]
        constructor
        · exact tsMem_iff.mpr ⟨(t, some w1), hw1, rfl⟩
        · exact tsMem_iff.mpr ⟨(t, some w2), hw2, rfl⟩
      have hlegmem : ((t, some w2) : Timestamp × Option ℚ) ∈ legCommon flyS legS :=
        mem_legCommon hw2 hcom
      obtain ⟨i, hi, hieq⟩ := List.mem_iff_getElem.mp hlegmem
      have hleneq : (flyCommon flyS legS).length = (legCommon flyS legS).length := by
        have := congrArg List.length key
        simpa using this
      have hif : i < (flyCommon flyS legS).length := by omega
      have hfsti : ((flyCommon flyS legS)[i]).1 = t := by
        have h2 := congrArg (fun l => l[i]?) key
        simp only [List.getElem?_map] at h2
        rw [List.getElem?_eq_getElem hif, List.getElem?_eq_getElem hi] at h2
        simp only [Option.map_some'] at h2
        injection h2 with h3
        rw [h3, hieq]
      have hflymem : (flyCommon flyS legS)[i] ∈ flyS :=
        flyCommon_subset (List.getElem_mem hif)
      have hflyeq : (flyCommon flyS legS)[i] = (t, some w1) := by
        apply List.inj_on_of_nodup_map hf hflymem hw1
        rw [hfsti]
      have hzlen : i < ((legCommon flyS legS).zip (flyCommon flyS legS)).length := by
        rw [List.length_zip]
        omega
      have hpair : ((legCommon flyS legS).zip (flyCommon flyS legS))[i]
          = ((t, some w2), (t, some w1)) := by
        rw [List.getElem_zip, hieq, hflyeq]
      have hpmem : (((t, some w2), (t, some w1)) :
          (Timestamp × Option ℚ) × (Timestamp × Option ℚ)) ∈
          (legCommon flyS legS).zip (flyCommon flyS legS) := by
        rw [← hpair]
        exact List.getElem_mem hzlen
      refine ⟨⟨t, w2, w1⟩, ?_, rfl⟩
      apply hperm.mem_iff.mpr
      exact List.mem_filterMap.mpr ⟨_, hpmem, rfl⟩

end DFly

namespace DFly

/-- A fly series listing the same timestamp twice. -/
def dupFly : Series := [(⟨24288,1,0⟩, some 5), (⟨24288,1,0⟩, some 5)]

/-- A leg series listing the same timestamp twice. -/
def dupLeg : Series := [(⟨24288,1,0⟩, some 7), (⟨24288,1,0⟩, some 7)]

/-- C5 is false as stated: when both inputs duplicate a timestamp the code
keeps BOTH rows — the output has two rows with the same timestamp instead of
one collapsed last-write-wins row, violating the no-duplicates clause. -/
theorem claim_C5_counterexample :
    align dupFly dupLeg =
      .ok [⟨⟨24288,1,0⟩, 7, 5⟩, ⟨⟨24288,1,0⟩, 7, 5⟩] ∧
    (align dupFly dupLeg).map (fun rows => rows.map Row.ts) =
      .ok [⟨24288,1,0⟩, ⟨24288,1,0⟩] := by
  constructor <;> decide

/-- A fly series with two distinct timestamps. -/
def flyW5 : Series := [(⟨24288,1,0⟩, some 5), (⟨24288,2,0⟩, some 6)]

/-- A leg series sharing only the first timestamp. -/
def legW5 : Series := [(⟨24288,1,0⟩, some 7)]

theorem claim_C5_witness :
    (flyW5.map Prod.fst).Nodup ∧ (legW5.map Prod.fst).Nodup ∧
    ∃ rows, align flyW5 legW5 = .ok rows ∧
      rows.Pairwise (fun a b => a.ts.le b.ts ∧ a.ts ≠ b.ts) ∧
      (∀ t, (∃ r ∈ rows, r.ts = t) ↔
        ((∃ w, (t, some w) ∈ flyW5) ∧ (∃ w, (t, some w) ∈ legW5))) :=
  ⟨by decide, by decide, claim_C5_alignment_unique (by decide) (by decide)⟩

end DFly
